import Mathlib

/-
Verification of the splunk-show-public maintenance scripts
(.github/scripts/auto_generate_redirects.py and .github/scripts/generate_redirects.py).

Strings are modelled as `List Char` with `String` wrappers.  The Python regular
expressions of the scripts are embedded through a small backtracking engine
(`RE` / `reMatches`) whose candidate lists mirror CPython `re` semantics:
alternatives in written order, greedy repetition longest first, `re.sub`
scanning positions left to right and replacing the first (leftmost, highest
priority) match.  Character classes (`\s`, `\d`, `\w`) and `str.lower` are
modelled on their ASCII fragment, which covers the repository's file names.

A crucial reading of the source: `year_pattern = r'\d{4}|\'\d{2}'` is
interpolated into the date patterns without parentheses, so each pattern that
mentions it splits into two top-level alternatives; the trailing
`(?:\s*\))?\b` belongs only to the `'\d{2}` alternative.
-/

namespace ShowPublic

/-- ASCII fragment of Python regex `\s` (space, tab, newline, carriage return,
vertical tab, form feed). -/
def pyIsSpace (c : Char) : Bool :=
  c = ' ' || c = '\t' || c = '\n' || c = '\r' || c = '\x0b' || c = '\x0c'

/-- Python regex `\d` (ASCII decimal digits). -/
def pyIsDigit (c : Char) : Bool :=
  c.isDigit

/-- ASCII fragment of Python regex `\w`: alphanumeric or underscore. -/
def isWordChar (c : Char) : Bool :=
  c.isAlphanum || c = '_'

/-- The apostrophe character, written by code point. -/
def apos : Char := Char.ofNat 39

/-- ASCII fragment of Python `str.lower`; `Char.toLower` maps exactly
`A`-`Z` to `a`-`z` and fixes everything else. -/
def pyLower (c : Char) : Char :=
  c.toLower

/-- Character class `[\s_-]` used by the scripts' separator-collapsing
substitutions and by the date patterns' optional one-character lead-in. -/
def isSepClass (c : Char) : Bool :=
  pyIsSpace c || c = '_' || c = '-'

/-- Length of the longest prefix of `s` whose characters satisfy `p`. -/
def countLeading (p : Char → Bool) : List Char → Nat
  | [] => 0
  | c :: cs => if p c then countLeading p cs + 1 else 0

/-- Check that the first `n` characters of `s` exist and satisfy `p`. -/
def checkExact (p : Char → Bool) : Nat → List Char → Bool
  | 0, _ => true
  | _ + 1, [] => false
  | n + 1, c :: cs => p c && checkExact p n cs

/-- Case-insensitive comparison on the ASCII model of `str.lower`,
modelling `re.IGNORECASE`. -/
def charEqCI (a b : Char) : Bool := pyLower a = pyLower b

/-- Case-insensitive literal-word check against the start of the input. -/
def istrCheck : List Char → List Char → Bool
  | [], _ => true
  | _ :: _, [] => false
  | p :: ps, c :: cs => charEqCI p c && istrCheck ps cs

/-- Syntax of the regular-expression fragment the scripts use.  `cls` is a
one-character class, `istr` a case-insensitive literal, `rep0`/`rep1` greedy
`p*`/`p+` over a character class, `exactly` a counted class `p{n}`. -/
inductive RE where
  | cls (p : Char → Bool)
  | istr (w : List Char)
  | cat (a b : RE)
  | alt (a b : RE)
  | opt (a : RE)
  | rep0 (p : Char → Bool)
  | rep1 (p : Char → Bool)
  | exactly (p : Char → Bool) (n : Nat)

/-- All lengths of matches of `r` against a prefix of `s`, listed in CPython
backtracking priority order: earlier alternatives first, greedy repetitions
longest first, optional part taken before skipped. -/
def reMatches : RE → List Char → List Nat
  | .cls _, [] => []
  | .cls p, c :: _ => if p c then [1] else []
  | .istr w, s => if istrCheck w s then [w.length] else []
  | .cat a b, s => (reMatches a s).flatMap (fun n => (reMatches b (s.drop n)).map (n + ·))
  | .alt a b, s => reMatches a s ++ reMatches b s
  | .opt a, s => reMatches a s ++ [0]
  | .rep0 p, s => let m := countLeading p s; (List.range (m + 1)).map (fun i => m - i)
  | .rep1 p, s => let m := countLeading p s; (List.range m).map (fun i => m - i)
  | .exactly p n, s => if checkExact p n s then [n] else []

/-- Word-character test on an optional character (`none` means outside the
string, which is never a word character). -/
def isWordO : Option Char → Bool
  | none => false
  | some c => isWordChar c

/-- Word boundary `\b` between positions `n - 1` and `n` of `s`. -/
def boundaryAfter (s : List Char) (n : Nat) : Bool :=
  match n with
  | 0 => false
  | k + 1 => isWordO s[k]? != isWordO s[k + 1]?

/-- One date pattern is a list of top-level alternatives, each a core regex
plus a flag for a trailing `\b`.  The first alternative (in priority order)
that yields a match wins, exactly as in CPython backtracking. -/
def firstMatchLen : List (RE × Bool) → List Char → Option Nat
  | [], _ => none
  | (core, needsB) :: rest, s =>
    match (reMatches core s).find? (fun n => !needsB || boundaryAfter s n) with
    | some n => some n
    | none => firstMatchLen rest s

/-- Model of `re.sub(pattern, repl, s)`: scan positions left to right; at a
matching position emit `repl` and resume after the match, otherwise copy one
character.  A zero-length answer is treated as no match; the scripts' patterns
never match the empty string, and for an empty replacement CPython's handling
of empty matches coincides with copying the character anyway.  Recursion is
by fuel so that the kernel can evaluate the function; when the fuel reaches
zero with input left (which cannot happen starting from `subAll`), the rest
of the input is returned unchanged. -/
def subAllF (matchAt : List Char → Option Nat) (repl : List Char) : Nat → List Char → List Char
  | _, [] => []
  | 0, s => s
  | fuel + 1, c :: cs =>
    match matchAt (c :: cs) with
    | some (n + 1) => repl ++ subAllF matchAt repl fuel (cs.drop n)
    | _ => c :: subAllF matchAt repl fuel cs

/-- Model of `re.sub(pattern, repl, s)`, entry point: the fuel `s.length`
bounds the number of steps, each of which consumes at least one character. -/
def subAll (matchAt : List Char → Option Nat) (repl : List Char) (s : List Char) : List Char :=
  subAllF matchAt repl s.length s

/-- Matcher for a run `p+` (used for `[\s_-]+` and `\s+`). -/
def runMatchAt (p : Char → Bool) (s : List Char) : Option Nat :=
  match countLeading p s with
  | 0 => none
  | n + 1 => some (n + 1)

/-- Matcher for a single character of class `p` (used for `[^\w\s-]`). -/
def clsMatchAt (p : Char → Bool) (s : List Char) : Option Nat :=
  match s with
  | [] => none
  | c :: _ => if p c then some 1 else none

/-- Matcher for `\s*-\s*`: optional spaces, a hyphen, optional spaces. -/
def hyphMatchAt (s : List Char) : Option Nat :=
  let a := countLeading pyIsSpace s
  match s.drop a with
  | c :: rest => if c = '-' then some (a + 1 + countLeading pyIsSpace rest) else none
  | [] => none

/-- No two adjacent occurrences of `r` in the list. -/
def noAdjR (r : Char) : List Char → Bool
  | a :: b :: rest => !(a = r && b = r) && noAdjR r (b :: rest)
  | _ => true

/-- Model of Python `str.strip` with a character predicate: drop matching
characters from both ends. -/
def stripWhile (p : Char → Bool) (s : List Char) : List Char :=
  ((s.dropWhile p).reverse.dropWhile p).reverse

/-- Characters stripped by `.strip(' -_')`. -/
def isStripSet (c : Char) : Bool :=
  c = ' ' || c = '-' || c = '_'

/-- Fold a nonempty list of alternatives left, matching the written order of
a regex alternation `(x1|x2|...)`. -/
def altList : List RE → RE
  | [] => .cls fun _ => false
  | r :: rs => rs.foldl .alt r

/-- Right-nested concatenation ending in `last`. -/
def catList (rs : List RE) (last : RE) : RE :=
  rs.foldr .cat last

/-- Abbreviated month names of `months_abbr`, in source order. -/
def monthsAbbr : List String :=
  ["Jan", "Feb", "Mar", "Apr", "May", "Jun", "Jul", "Aug", "Sep", "Oct", "Nov", "Dec"]

/-- Full month names of `months_full`, in source order. -/
def monthsFull : List String :=
  ["January", "February", "March", "April", "May", "June", "July", "August",
   "September", "October", "November", "December"]

/-- The regex `month_pattern = (?:(Jan|...|Dec)|(January|...|December))`. -/
def monthRE : RE :=
  .alt (altList (monthsAbbr.map (fun m => .istr m.data)))
       (altList (monthsFull.map (fun m => .istr m.data)))

/-- The regex `day_pattern = \d{1,2}(?:st|nd|rd|th)?`; `\d{1,2}` greedily
tries two digits before one. -/
def dayRE : RE :=
  .cat (.alt (.exactly pyIsDigit 2) (.exactly pyIsDigit 1))
       (.opt (altList (["st", "nd", "rd", "th"].map (fun m => .istr m.data))))

/-- The optional lead-in `(?:[\s_-]|\s*\(\s*)?` of every date pattern. -/
def leadInRE : RE :=
  .opt (.alt (.cls isSepClass)
             (.cat (.rep0 pyIsSpace) (.cat (.cls (· = '(')) (.rep0 pyIsSpace))))

/-- The optional closing `(?:\s*\))?` of a date pattern. -/
def closeRE : RE :=
  .opt (.cat (.rep0 pyIsSpace) (.cls (· = ')')))

/-- The second top-level alternative `'\d{2}(?:\s*\))?` shared by every date
pattern whose text interpolates `year_pattern`; it carries the trailing `\b`. -/
def aposYearCore : RE :=
  .cat (.cls (· = apos)) (.cat (.exactly pyIsDigit 2) closeRE)

/-- Date pattern 1, `(?:[\s_-]|\s*\(\s*)?month\s+\d{4} | '\d{2}(?:\s*\))?\b`. -/
def pat1 : List (RE × Bool) :=
  [(catList [leadInRE, monthRE, .rep1 pyIsSpace] (.exactly pyIsDigit 4), false),
   (aposYearCore, true)]

/-- Date pattern 2, `(?:[\s_-]|\s*\(\s*)?\d{4}-\d{2}(?:-\d{2})?(?:\s*\))?\b`. -/
def pat2 : List (RE × Bool) :=
  [(catList [leadInRE, .exactly pyIsDigit 4, .cls (· = '-'), .exactly pyIsDigit 2,
             .opt (.cat (.cls (· = '-')) (.exactly pyIsDigit 2))] closeRE, true)]

/-- Date pattern 3, `(?:[\s_-]|\s*\(\s*)?\d{8}(?:\s*\))?\b`. -/
def pat3 : List (RE × Bool) :=
  [(catList [leadInRE, .exactly pyIsDigit 8] closeRE, true)]

/-- Date pattern 4, `(?:[\s_-]|\s*\(\s*)?day\s+month\s+\d{4} | '\d{2}(?:\s*\))?\b`. -/
def pat4 : List (RE × Bool) :=
  [(catList [leadInRE, dayRE, .rep1 pyIsSpace, monthRE, .rep1 pyIsSpace]
            (.exactly pyIsDigit 4), false),
   (aposYearCore, true)]

/-- Date pattern 5, `(?:[\s_-]|\s*\(\s*)?month\s+day,?\s+\d{4} | '\d{2}(?:\s*\))?\b`. -/
def pat5 : List (RE × Bool) :=
  [(catList [leadInRE, monthRE, .rep1 pyIsSpace, dayRE, .opt (.cls (· = ',')),
             .rep1 pyIsSpace] (.exactly pyIsDigit 4), false),
   (aposYearCore, true)]

/-- Date pattern 6, `(?:[\s_-]|\s*\(\s*)?\d{4} | '\d{2}(?:\s*\))?\b`. -/
def pat6 : List (RE × Bool) :=
  [(catList [leadInRE] (.exactly pyIsDigit 4), false),
   (aposYearCore, true)]

/-- The six date patterns in application order. -/
def datePats : List (List (RE × Bool)) :=
  [pat1, pat2, pat3, pat4, pat5, pat6]

/-- Model of `remove_date_patterns`: apply each date pattern's `re.sub` (with
a `.strip()` after each), collapse `[\s_-]+` runs to one space, strip
`' -_'`, collapse `\s+` runs, and strip. -/
def removeDatePatternsL (text : List Char) : List Char :=
  let t := datePats.foldl (fun t pat => stripWhile pyIsSpace (subAll (firstMatchLen pat) [] t)) text
  let t := stripWhile isStripSet (subAll (runMatchAt isSepClass) [' '] t)
  let t := stripWhile pyIsSpace (subAll (runMatchAt pyIsSpace) [' '] t)
  stripWhile pyIsSpace t

/-- Index of the last occurrence of `t` in `s`. -/
def rfindIdx (t : Char) (s : List Char) : Option Nat :=
  match s.reverse.findIdx? (· = t) with
  | some j => some (s.length - 1 - j)
  | none => none

/-- Model of `os.path.splitext` (POSIX flavour, separator `/`): split at the
last dot of the final path component unless every character of that component
before the dot is itself a dot. -/
def splitextL (p : List Char) : List Char × List Char :=
  let sepI : Int := match rfindIdx '/' p with | some i => (i : Int) | none => -1
  let dotI : Int := match rfindIdx '.' p with | some i => (i : Int) | none => -1
  if sepI < dotI then
    let start := (sepI + 1).toNat
    let d := dotI.toNat
    if ((p.drop start).take (d - start)).all (· = '.') then (p, [])
    else (p.take d, p.drop d)
  else (p, [])

/-- Model of `clean_filename_for_title`: drop the extension, remove date
patterns, turn underscores into spaces, normalise `\s*-\s*` to a spaced
hyphen, collapse whitespace and strip. -/
def cleanFilenameForTitleL (filename : List Char) : List Char :=
  let t := (splitextL filename).1
  let t := removeDatePatternsL t
  let t := t.map (fun c => if c = '_' then ' ' else c)
  let t := subAll hyphMatchAt (' ' :: '-' :: ' ' :: []) t
  let t := subAll (runMatchAt pyIsSpace) [' '] t
  stripWhile pyIsSpace t

/-- Model of `slugify`: lower-case, delete `[^\w\s-]`, collapse `[\s_-]+`
runs to a hyphen, strip hyphens. -/
def slugifyL (text : List Char) : List Char :=
  let t := text.map pyLower
  let t := subAll (clsMatchAt (fun c => !(isWordChar c || pyIsSpace c || c = '-'))) [] t
  let t := subAll (runMatchAt isSepClass) ['-'] t
  stripWhile (· = '-') t

/-- String-level `remove_date_patterns`. -/
def remove_date_patterns (s : String) : String :=
  ⟨removeDatePatternsL s.data⟩

/-- String-level `clean_filename_for_title`. -/
def clean_filename_for_title (s : String) : String :=
  ⟨cleanFilenameForTitleL s.data⟩

/-- String-level `slugify`. -/
def slugify (s : String) : String :=
  ⟨slugifyL s.data⟩

/-- String-level lower-casing (`str.lower`, ASCII model). -/
def strLower (s : String) : String :=
  ⟨s.data.map pyLower⟩

/-- The constant `GITHUB_PAGES_BASE_URL` of the script. -/
def GITHUB_PAGES_BASE_URL : String :=
  "https://splunk.github.io/splunk-show-public/"

/-- A manifest entry as read back from `redirects.json`: every field may be
missing, matching the script's `entry.get(...)` accesses.  Fields are listed
in the order the script writes them. -/
structure OldEntry where
  id : Option String
  title : Option String
  redirect_html_path : Option String
  current_target_file : Option String
  public_url : Option String
  last_updated_at : Option String
  file_sha : Option String
deriving DecidableEq, Repr

/-- A manifest entry as the reconciler builds it (`entry_data`): the six keys
set in the merge loop, plus `public_url`, which is only added later by the
HTML/public-URL pass (hence optional). -/
structure Entry where
  id : String
  title : String
  redirect_html_path : String
  current_target_file : String
  last_updated_at : String
  file_sha : String
  public_url : Option String
deriving DecidableEq, Repr

/-- Reading a written entry back as JSON: every written key is present. -/
def toOld (e : Entry) : OldEntry :=
  ⟨some e.id, some e.title, some e.redirect_html_path, some e.current_target_file,
   e.public_url, some e.last_updated_at, some e.file_sha⟩

/-- Lookup in `existing_redirects_map_by_normalized_target_url`: the map is
keyed by the lower-cased `current_target_file` and built by insertion, so on
duplicate keys the later entry wins and entries without that key are ignored. -/
def lookupExisting (old : List OldEntry) (key : String) : Option OldEntry :=
  old.reverse.find? (fun e => e.current_target_file.map strLower == some key)

/-- check whether `leadsWith pat s`, i.e. `pat` is an initial run of `s`
(case-sensitive, models `str.startswith`). -/
def leadsWith : List Char → List Char → Bool
  | [], _ => true
  | _ :: _, [] => false
  | a :: ps, b :: cs => a = b && leadsWith ps cs

/-- Model of `str.endswith`. -/
def trailsWith (pat s : List Char) : Bool :=
  leadsWith pat.reverse s.reverse

/-- A file met by the `os.walk` over the content directory: the directory
path relative to the repository root (always `public` or `public/...`), the
file name, and the result of `get_file_git_sha` on it (`none` models a failed
SHA computation, after which the script skips the file). -/
structure FileInfo where
  dirRel : String
  filename : String
  sha : Option String
deriving DecidableEq, Repr

/-- The walk-level skip rules: hidden files, known system files, and already
generated HTML files. -/
def isSkipped (f : FileInfo) : Bool :=
  leadsWith ['.'] f.filename.data
    || f.filename = ".gitkeep" || f.filename = "Thumbs.db" || f.filename = "desktop.ini"
    || trailsWith ".html".data (strLower f.filename).data

/-- The files that survive the skip rules; exactly these get a target URL
added to `discovered_target_urls`. -/
def discoveredFiles (files : List FileInfo) : List FileInfo :=
  files.filter (fun f => !isSkipped f)

/-- Path of the file relative to the repository root, with `/` separators. -/
def relPathOf (f : FileInfo) : String :=
  f.dirRel ++ "/" ++ f.filename

/-- The target URL `GITHUB_PAGES_BASE_URL + relative_original_file_path`. -/
def targetOf (f : FileInfo) : String :=
  GITHUB_PAGES_BASE_URL ++ relPathOf f

/-- The file name without its extension, `os.path.splitext(filename)[0]`. -/
def stemOf (f : FileInfo) : String :=
  ⟨(splitextL f.filename.data).1⟩

/-- Models `os.path.relpath(os.path.join(root, stem), full_root_content_path)`
under the `os.walk` invariant that `dirRel` is `public` or starts with
`public/`: the directory part relative to the content root, empty at the
root itself. -/
def contentRelDir (dirRel : String) : String :=
  if dirRel = "public" then "" else ⟨dirRel.data.drop 7⟩

/-- The `id_base_path` fed to `slugify` for the inferred id. -/
def idBasePath (f : FileInfo) : String :=
  let d := contentRelDir f.dirRel
  if d = "" then stemOf f else d ++ "/" ++ stemOf f

/-- The inferred id, `slugify(id_base_path)`. -/
def inferredId (f : FileInfo) : String :=
  slugify (idBasePath f)

/-- The inferred title, `clean_filename_for_title(filename)`. -/
def inferredTitle (f : FileInfo) : String :=
  clean_filename_for_title f.filename

/-- The `name_for_slug_path`: the date-stripped stem with underscores
replaced by spaces. -/
def nameForSlug (f : FileInfo) : String :=
  ⟨(removeDatePatternsL (splitextL f.filename.data).1).map (fun c => if c = '_' then ' ' else c)⟩

/-- The inferred redirect HTML path, `dirname(relative path) + slug + .html`. -/
def inferredRedirect (f : FileInfo) : String :=
  f.dirRel ++ "/" ++ slugify (nameForSlug f) ++ ".html"

/-- The merge of a discovered file against a matching prior entry
(source lines 181-206): keep the prior `id`, `title` and
`redirect_html_path` (falling back to the inferred values when missing),
take the freshly computed target URL, and refresh the timestamp and SHA
exactly when one of the tracked comparisons reports a change; the target URL
comparison is case-insensitive. -/
def mergeEntry (e : OldEntry) (inferId inferTitle inferRedirect target sha now : String) :
    Entry :=
  let id := e.id.getD inferId
  let title := e.title.getD inferTitle
  let rpath := e.redirect_html_path.getD inferRedirect
  let changed :=
    (some id != e.id) || (some title != e.title) || (some rpath != e.redirect_html_path)
      || (strLower target != strLower (e.current_target_file.getD ""))
      || (some sha != e.file_sha)
  if changed then ⟨id, title, rpath, target, now, sha, none⟩
  else ⟨id, title, rpath, target, e.last_updated_at.getD now, e.file_sha.getD sha, none⟩

/-- A brand-new entry for a file with no matching prior entry
(source lines 207-216). -/
def freshEntry (f : FileInfo) (target sha now : String) : Entry :=
  ⟨inferredId f, inferredTitle f, inferredRedirect f, target, now, sha, none⟩

/-- The main discovery/merge loop over the (already skip-filtered) files:
files whose SHA computation failed are dropped, every other file produces
one entry, merged against the prior manifest when the lower-cased target URL
matches. -/
def mergeLoop (old : List OldEntry) (now : String) : List FileInfo → List Entry
  | [] => []
  | f :: rest =>
    match f.sha with
    | none => mergeLoop old now rest
    | some sha =>
      let target := targetOf f
      let entry :=
        match lookupExisting old (strLower target) with
        | some e => mergeEntry e (inferredId f) (inferredTitle f) (inferredRedirect f) target sha now
        | none => freshEntry f target sha now
      entry :: mergeLoop old now rest

/-- Characters CPython `urllib.parse.quote` never encodes
(letters, digits, `_.-~`). -/
def quoteSafeChar (c : Char) : Bool :=
  ('a' ≤ c && c ≤ 'z') || ('A' ≤ c && c ≤ 'Z') || pyIsDigit c
    || c = '_' || c = '.' || c = '-' || c = '~'

/-- UTF-8 bytes of a character. -/
def utf8Bytes (c : Char) : List Nat :=
  let n := c.toNat
  if n < 128 then [n]
  else if n < 2048 then [192 + n / 64, 128 + n % 64]
  else if n < 65536 then [224 + n / 4096, 128 + n / 64 % 64, 128 + n % 64]
  else [240 + n / 262144, 128 + n / 4096 % 64, 128 + n / 64 % 64, 128 + n % 64]

/-- Upper-case hexadecimal digit. -/
def hexDigit (n : Nat) : Char :=
  if n < 10 then Char.ofNat (48 + n) else Char.ofNat (55 + n)

/-- Percent-encoding of one byte, `%HH`. -/
def pctByte (b : Nat) : List Char :=
  '%' :: hexDigit (b / 16) :: hexDigit (b % 16) :: []

/-- Model of `urllib.parse.quote(s, safe)`. -/
def pyQuote (safe : List Char) (s : List Char) : List Char :=
  s.flatMap (fun c =>
    if quoteSafeChar c || safe.contains c then [c] else (utf8Bytes c).flatMap pctByte)

/-- Model of `str.split(sep)` for a one-character separator. -/
def splitOnChar (t : Char) : List Char → List (List Char)
  | [] => [[]]
  | c :: cs =>
    let r := splitOnChar t cs
    if c = t then [] :: r
    else
      match r with
      | h :: rest => (c :: h) :: rest
      | [] => [[c]]

/-- The `calculated_public_url`: the base URL followed by the redirect path
with each `/`-separated segment percent-encoded with `safe=''`. -/
def calcPublicUrl (rpath : String) : String :=
  GITHUB_PAGES_BASE_URL ++ ⟨List.intercalate ['/'] ((splitOnChar '/' rpath.data).map (pyQuote []))⟩

/-- The public-URL pass over one entry (source lines 246-249): if the stored
`public_url` differs from the computed one (it is absent on every entry the
merge loop builds), stamp a new timestamp; then store the computed URL. -/
def applyPublicUrl (now : String) (e : Entry) : Entry :=
  let cu := calcPublicUrl e.redirect_html_path
  let e1 := if e.public_url == some cu then e else { e with last_updated_at := now }
  { e1 with public_url := some cu }

/-- Insert `e` into a sorted list, after every element `x` with `le x e`;
for a total `le` this is the stable insertion step. -/
def insertBy (le : Entry → Entry → Bool) (e : Entry) : List Entry → List Entry
  | [] => [e]
  | x :: xs => if le x e then x :: insertBy le e xs else e :: x :: xs

/-- Stable insertion sort.  Python's `list.sort` is stable, and all stable
sorts under a total preorder agree, so this models source line 286. -/
def sortStable (le : Entry → Entry → Bool) (l : List Entry) : List Entry :=
  l.foldl (fun acc e => insertBy le e acc) []

/-- The final sort of the manifest by lower-cased id (source line 286). -/
def sortById (l : List Entry) : List Entry :=
  sortStable (fun a b => strLower a.id ≤ strLower b.id) l

/-- One reconciliation run as far as the manifest is concerned: filter the
walked files through the skip rules, run the merge loop against the prior
manifest, apply the public-URL pass, and sort by id.  The HTML rendering,
orphan-HTML cleanup and markdown generation do not touch the manifest data
(the orphan-entry loop of lines 220-224 only logs); `now` stands for the
run's `datetime.now()` timestamp string, assumed constant within a run. -/
def runScript (files : List FileInfo) (old : List OldEntry) (now : String) : List Entry :=
  sortById ((mergeLoop old now (discoveredFiles files)).map (applyPublicUrl now))

/-- Outcome of reading `redirects.json` at start-up. -/
inductive ManifestLoad where
  | missing
  | malformed
  | ok (entries : List OldEntry)
deriving DecidableEq, Repr

/-- The manifest the run continues with: `FileNotFoundError` leaves the
initial empty map, `JSONDecodeError` resets it to empty, and neither handler
exits (source lines 109-122). -/
def loadedEntries : ManifestLoad → List OldEntry
  | .missing => []
  | .malformed => []
  | .ok es => es

/-- A full run starting from a manifest-load outcome. -/
def runScriptFromLoad (files : List FileInfo) (load : ManifestLoad) (now : String) :
    List Entry :=
  runScript files (loadedEntries load) now

/-- A manifest entry as the earlier revision `generate_redirects.py` reads
it: `title`, `current_target_file` and `redirect_html_path` are accessed with
mandatory indexing (a missing one raises `KeyError` and nothing is written),
the remaining fields are carried through untouched. -/
structure GEntry where
  id : Option String
  title : String
  redirect_html_path : String
  current_target_file : String
  public_url : Option String
  last_updated_at : Option String
  file_sha : Option String
deriving DecidableEq, Repr

/-- The per-entry loop of `generate_redirects.py` (lines 33-68): each entry
gets `public_url` set to the computed value and is appended, in order, to
`updated_redirects_config`; no other field is written. -/
def processEntries : List GEntry → List GEntry
  | [] => []
  | e :: rest =>
    { e with public_url := some (calcPublicUrl e.redirect_html_path) } :: processEntries rest

/-- C5: the filename `Security Deep Dive - Oct 2023.pdf` is normalized to the
title `Security Deep Dive`, and slugifying that title gives
`security-deep-dive`. -/
theorem c5_example_title_and_slug :
    clean_filename_for_title "Security Deep Dive - Oct 2023.pdf" = "Security Deep Dive" ∧
      slugify "Security Deep Dive" = "security-deep-dive" := by
  decide

/-- C6 counterexample: on `Report 12 Oct 2023.pdf` the normalizer does not
strip the entire day-month-year token: the month-year pattern is applied
first and eats ` Oct 2023`, so the title is `Report 12`, not the non-date
prefix `Report` claimed. -/
theorem c6_counterexample_day_survives :
    clean_filename_for_title "Report 12 Oct 2023.pdf" = "Report 12" ∧
      clean_filename_for_title "Report 12 Oct 2023.pdf" ≠ "Report" := by
  decide

/-- C6 amended: the normalizer does not strip the entire space-separated
day-month-year date token of these base names.  With a four-digit year the
month-year pattern (which runs first) removes the month and year but keeps
the day number: `Report 12 Oct 2023.pdf` yields `Report 12` and
`Minutes 3rd December 2024.docx` yields `Minutes 3rd`.  With an apostrophe
year only the year is removed and both the day and the month survive:
`X 12 May '23.pdf` (written below with `apos` for the apostrophe) yields
`X 12 May`. -/
theorem c6_amended_month_year_stripped_day_retained :
    clean_filename_for_title "Report 12 Oct 2023.pdf" = "Report 12" ∧
      clean_filename_for_title "Minutes 3rd December 2024.docx" = "Minutes 3rd" ∧
      cleanFilenameForTitleL
          ('X' :: ' ' :: '1' :: '2' :: ' ' :: 'M' :: 'a' :: 'y' :: ' ' :: apos
            :: '2' :: '3' :: '.' :: 'p' :: 'd' :: 'f' :: [])
        = ('X' :: ' ' :: '1' :: '2' :: ' ' :: 'M' :: 'a' :: 'y' :: []) := by
  decide

/-- C3 counterexample: `clean_filename_for_title` is not idempotent on its
range.  Three witnesses in its range move again under a second application:
`a.b` (a dot makes the second pass strip `.b` as an extension), `1234` (the
first pass glues digits into a removable year), and `a '23` (an
apostrophe-year whose trailing word boundary only appears on the second
pass). -/
theorem c3_counterexample_not_idempotent :
    (clean_filename_for_title "a.b.pdf" = "a.b" ∧ clean_filename_for_title "a.b" = "a") ∧
      (clean_filename_for_title "12 567834" = "1234" ∧ clean_filename_for_title "1234" = "") ∧
      (cleanFilenameForTitleL ('a' :: ' ' :: apos :: '2' :: '3' :: '_' :: [])
          = ('a' :: ' ' :: apos :: '2' :: '3' :: []) ∧
        cleanFilenameForTitleL ('a' :: ' ' :: apos :: '2' :: '3' :: []) = ['a']) := by
  decide

/-- C9: both normalizers are total functions returning a string on every
input, and degenerate inputs produce the empty string: a filename that is
nothing but a date collapses to an empty title, and a text of pure
punctuation collapses to an empty slug. -/
theorem c9_normalizers_total :
    (∀ s : String, ∃ t : String, clean_filename_for_title s = t) ∧
      (∀ s : String, ∃ t : String, slugify s = t) ∧
      clean_filename_for_title "2023.pdf" = "" ∧ slugify "$$$" = "" := by
  refine ⟨fun s => ⟨_, rfl⟩, fun s => ⟨_, rfl⟩, ?_, ?_⟩ <;> decide

/-- C7: a missing manifest (`FileNotFoundError`) and a malformed manifest
(`JSONDecodeError`) are both non-fatal and make the run behave exactly as if
the manifest had been an empty list. -/
theorem c7_manifest_load_errors_treated_as_empty :
    ∀ (files : List FileInfo) (now : String),
      runScriptFromLoad files .missing now = runScriptFromLoad files (.ok []) now ∧
        runScriptFromLoad files .malformed now = runScriptFromLoad files (.ok []) now := by
  intro files now
  exact ⟨rfl, rfl⟩

/-- C10: the earlier revision's loop maps each manifest entry, in order, to
the same entry with only `public_url` overwritten by the computed value:
no entry is removed, reordered, or changed in any other field. -/
theorem c10_old_revision_only_sets_public_url :
    ∀ cfg : List GEntry,
      processEntries cfg =
        cfg.map (fun e => { e with public_url := some (calcPublicUrl e.redirect_html_path) }) := by
  intro cfg
  induction cfg with
  | nil => rfl
  | cons e rest ih => simp [processEntries, ih]

/-- C1 (code bug): reconciling twice over an unchanged filesystem is not
idempotent.  The merge loop rebuilds each matched entry without carrying the
prior `public_url`, so the public-URL pass sees `entry.get('public_url')`
as absent, restamps `last_updated_at` on every run, and the manifest of the
second run differs from the first whenever the timestamps differ. -/
theorem c1_second_run_restamps_timestamps :
    (runScript [⟨"public", "a.pdf", some "abc"⟩]
        ((runScript [⟨"public", "a.pdf", some "abc"⟩] [] "2024-01-01 10:00:00").map toOld)
        "2024-01-01 10:05:00"
      ≠ runScript [⟨"public", "a.pdf", some "abc"⟩] [] "2024-01-01 10:00:00") ∧
      (runScript [⟨"public", "a.pdf", some "abc"⟩] [] "2024-01-01 10:00:00").map
          (fun e => e.last_updated_at) = ["2024-01-01 10:00:00"] ∧
      (runScript [⟨"public", "a.pdf", some "abc"⟩]
          ((runScript [⟨"public", "a.pdf", some "abc"⟩] [] "2024-01-01 10:00:00").map toOld)
          "2024-01-01 10:05:00").map (fun e => e.last_updated_at) = ["2024-01-01 10:05:00"] := by
  decide

/-- C2 counterexample: the merge compares the target URL case-insensitively,
so when the freshly computed target differs from the prior entry's only in
letter case (and nothing else changed) the entry's `current_target_file`
field does change while the old timestamp is retained — against the claim's
"new timestamp iff some tracked field differs". -/
theorem c2_counterexample_case_change_keeps_timestamp :
    (mergeEntry
          ⟨some "x", some "T", some "public/x.html",
            some (GITHUB_PAGES_BASE_URL ++ "public/A.PDF"), some "u",
            some "2020-01-01 00:00:00", some "s"⟩
          "i" "t" "r" (GITHUB_PAGES_BASE_URL ++ "public/a.pdf") "s" "2024-06-01 12:00:00")
        = ⟨"x", "T", "public/x.html", GITHUB_PAGES_BASE_URL ++ "public/a.pdf",
            "2020-01-01 00:00:00", "s", none⟩ ∧
      (GITHUB_PAGES_BASE_URL ++ "public/a.pdf") ≠ (GITHUB_PAGES_BASE_URL ++ "public/A.PDF") ∧
      ("2020-01-01 00:00:00" : String) ≠ "2024-06-01 12:00:00" := by
  decide

/-- C2 amended: for a prior entry carrying all its fields whose lower-cased
target URL matches the freshly computed one (which is how it was looked up),
the merge keeps the prior `id`, `title` and `redirect_html_path`, installs
the new target URL, and stamps a new timestamp (together with the new SHA)
exactly when the SHA changed — the target URL comparison being
case-insensitive, not literal; otherwise the prior timestamp and SHA are
retained. -/
theorem c2_merge_preserves_fields_and_stamps_iff_sha_changed
    (id0 title0 rpath0 ctf0 ts0 sha0 : String) (pu : Option String)
    (iid ititle irpath target sha now : String)
    (h : strLower target = strLower ctf0) :
    (mergeEntry ⟨some id0, some title0, some rpath0, some ctf0, pu, some ts0, some sha0⟩
        iid ititle irpath target sha now)
      = if sha = sha0
          then ⟨id0, title0, rpath0, target, ts0, sha0, none⟩
          else ⟨id0, title0, rpath0, target, now, sha, none⟩ := by
  by_cases hs : sha = sha0 <;>
    simp [mergeEntry, h, hs]

/-- Witness for the amended C2 theorem at a concrete input, covering both the
unchanged-SHA branch (timestamp retained) and the changed-SHA branch
(timestamp refreshed). -/
theorem c2_merge_witness :
    (mergeEntry ⟨some "x", some "T", some "p/x.html", some "u/B.pdf", none,
          some "2020-01-01 00:00:00", some "s"⟩
        "i" "t" "r" "U/b.pdf" "s" "2024-06-01 12:00:00")
      = ⟨"x", "T", "p/x.html", "U/b.pdf", "2020-01-01 00:00:00", "s", none⟩ ∧
      (mergeEntry ⟨some "x", some "T", some "p/x.html", some "u/B.pdf", none,
            some "2020-01-01 00:00:00", some "s"⟩
          "i" "t" "r" "U/b.pdf" "s2" "2024-06-01 12:00:00")
        = ⟨"x", "T", "p/x.html", "U/b.pdf", "2024-06-01 12:00:00", "s2", none⟩ := by
  constructor
  · have h := c2_merge_preserves_fields_and_stamps_iff_sha_changed
      "x" "T" "p/x.html" "u/B.pdf" "2020-01-01 00:00:00" "s" none
      "i" "t" "r" "U/b.pdf" "s" "2024-06-01 12:00:00" (by decide)
    simpa using h
  · have h := c2_merge_preserves_fields_and_stamps_iff_sha_changed
      "x" "T" "p/x.html" "u/B.pdf" "2020-01-01 00:00:00" "s" none
      "i" "t" "r" "U/b.pdf" "s2" "2024-06-01 12:00:00" (by decide)
    simpa using h

/-- C8 counterexample: a discovered file whose SHA computation fails is
skipped: it is discovered (it passes the skip rules and gets a target URL),
has no matching prior entry, and still produces no manifest entry. -/
theorem c8_counterexample_sha_failure_never_listed :
    discoveredFiles [⟨"public", "a.pdf", none⟩] = [⟨"public", "a.pdf", none⟩] ∧
      lookupExisting [] (strLower (targetOf ⟨"public", "a.pdf", none⟩)) = none ∧
      runScript [⟨"public", "a.pdf", none⟩] [] "2024-01-01 10:00:00" = [] := by
  decide

theorem mem_insertBy {le : Entry → Entry → Bool} {x e : Entry} {l : List Entry} :
    e ∈ insertBy le x l ↔ e = x ∨ e ∈ l := by
  induction l with
  | nil => simp [insertBy]
  | cons y ys ih =>
    by_cases h : le y x = true
    · simp only [insertBy, h, if_true, List.mem_cons, ih]
      tauto
    · simp only [insertBy, h, if_false, Bool.false_eq_true, List.mem_cons]

theorem mem_sortStable_aux {le : Entry → Entry → Bool} {e : Entry}
    (l : List Entry) (acc : List Entry) :
    e ∈ l.foldl (fun a x => insertBy le x a) acc ↔ e ∈ acc ∨ e ∈ l := by
  induction l generalizing acc with
  | nil => simp
  | cons y ys ih =>
    rw [List.foldl_cons, ih, mem_insertBy]
    simp
    tauto

theorem mem_sortStable {le : Entry → Entry → Bool} {e : Entry} {l : List Entry} :
    e ∈ sortStable le l ↔ e ∈ l := by
  rw [sortStable, mem_sortStable_aux]
  simp

theorem applyPublicUrl_id (now : String) (e : Entry) :
    (applyPublicUrl now e).id = e.id := by
  rw [applyPublicUrl]
  split <;> rfl

theorem applyPublicUrl_title (now : String) (e : Entry) :
    (applyPublicUrl now e).title = e.title := by
  rw [applyPublicUrl]
  split <;> rfl

theorem applyPublicUrl_redirect (now : String) (e : Entry) :
    (applyPublicUrl now e).redirect_html_path = e.redirect_html_path := by
  rw [applyPublicUrl]
  split <;> rfl

theorem applyPublicUrl_target (now : String) (e : Entry) :
    (applyPublicUrl now e).current_target_file = e.current_target_file := by
  rw [applyPublicUrl]
  split <;> rfl

theorem applyPublicUrl_sha (now : String) (e : Entry) :
    (applyPublicUrl now e).file_sha = e.file_sha := by
  rw [applyPublicUrl]
  split <;> rfl

theorem applyPublicUrl_ts_of_none (now : String) (e : Entry) (h : e.public_url = none) :
    (applyPublicUrl now e).last_updated_at = now := by
  rw [applyPublicUrl]
  simp [h]

theorem mergeLoop_mem_fresh {old : List OldEntry} {now : String} {l : List FileInfo}
    {f : FileInfo} {h : String} (hf : f ∈ l) (hsha : f.sha = some h)
    (hlook : lookupExisting old (strLower (targetOf f)) = none) :
    freshEntry f (targetOf f) h now ∈ mergeLoop old now l := by
  induction l with
  | nil => cases hf
  | cons g rest ih =>
    rcases List.mem_cons.mp hf with hEq | hTail
    · subst hEq
      simp only [mergeLoop, hsha, hlook]
      exact List.mem_cons_self _ _
    · rw [mergeLoop]
      cases g.sha with
      | none => exact ih hTail
      | some s => exact List.mem_cons_of_mem _ (ih hTail)

theorem mergeLoop_target_discovered {old : List OldEntry} {now : String} {l : List FileInfo}
    {e : Entry} (he : e ∈ mergeLoop old now l) :
    ∃ f ∈ l, e.current_target_file = targetOf f := by
  induction l with
  | nil => cases he
  | cons g rest ih =>
    rw [mergeLoop] at he
    cases hg : g.sha with
    | none =>
      rw [hg] at he
      obtain ⟨f, hf, ht⟩ := ih he
      exact ⟨f, List.mem_cons_of_mem _ hf, ht⟩
    | some s =>
      rw [hg] at he
      rcases List.mem_cons.mp he with hEq | hTail
      · subst hEq
        refine ⟨g, List.mem_cons_self _ _, ?_⟩
        cases hlook : lookupExisting old (strLower (targetOf g)) <;> simp [hlook, mergeEntry, freshEntry]
        split <;> rfl
      · obtain ⟨f, hf, ht⟩ := ih hTail
        exact ⟨f, List.mem_cons_of_mem _ hf, ht⟩

/-- C8 amended: after one run, every discovered file whose SHA computation
succeeded and that matched no prior entry (under the lower-cased target URL
key) appears in the output manifest as a fresh entry stamped with the run's
timestamp; files whose SHA computation failed are skipped.  Conversely every
output entry's target URL belongs to a discovered file, so a prior entry
whose file is no longer discovered is absent from the output manifest. -/
theorem c8_fresh_entries_added_and_orphans_dropped
    (files : List FileInfo) (old : List OldEntry) (now : String) :
    (∀ f ∈ discoveredFiles files, ∀ h : String, f.sha = some h →
        lookupExisting old (strLower (targetOf f)) = none →
        ∃ e ∈ runScript files old now,
          e.id = inferredId f ∧ e.title = inferredTitle f ∧
            e.redirect_html_path = inferredRedirect f ∧
            e.current_target_file = targetOf f ∧
            e.last_updated_at = now ∧ e.file_sha = h) ∧
      (∀ e ∈ runScript files old now, ∃ f ∈ discoveredFiles files,
          e.current_target_file = targetOf f) ∧
      (∀ o ∈ old, ∀ octf : String, o.current_target_file = some octf →
          (∀ f ∈ discoveredFiles files, strLower (targetOf f) ≠ strLower octf) →
          ∀ e ∈ runScript files old now, strLower e.current_target_file ≠ strLower octf) := by
  have hmemRun : ∀ e : Entry, e ∈ runScript files old now ↔
      e ∈ (mergeLoop old now (discoveredFiles files)).map (applyPublicUrl now) := by
    intro e
    rw [runScript, sortById, mem_sortStable]
  refine ⟨?_, ?_, ?_⟩
  · intro f hf h hsha hlook
    refine ⟨applyPublicUrl now (freshEntry f (targetOf f) h now), ?_, ?_⟩
    · rw [hmemRun]
      exact List.mem_map_of_mem _ (mergeLoop_mem_fresh hf hsha hlook)
    · refine ⟨?_, ?_, ?_, ?_, ?_, ?_⟩
      · rw [applyPublicUrl_id]; rfl
      · rw [applyPublicUrl_title]; rfl
      · rw [applyPublicUrl_redirect]; rfl
      · rw [applyPublicUrl_target]; rfl
      · exact applyPublicUrl_ts_of_none now _ rfl
      · rw [applyPublicUrl_sha]; rfl
  · intro e he
    rw [hmemRun] at he
    obtain ⟨e0, he0, hmap⟩ := List.mem_map.mp he
    obtain ⟨f, hf, ht⟩ := mergeLoop_target_discovered he0
    refine ⟨f, hf, ?_⟩
    rw [← hmap, applyPublicUrl_target, ht]
  · intro o _ octf _ hnone e he
    rw [hmemRun] at he
    obtain ⟨e0, he0, hmap⟩ := List.mem_map.mp he
    obtain ⟨f, hf, ht⟩ := mergeLoop_target_discovered he0
    rw [← hmap, applyPublicUrl_target, ht]
    exact hnone f hf

/-- Witness for the amended C8 theorem: at the concrete run over one new
file `public/a.pdf`, the fresh-entry clause produces an entry with the
run's timestamp, and the orphan clause states that an undiscovered prior
target is absent. -/
theorem c8_fresh_entries_witness :
    (∃ e ∈ runScript [⟨"public", "a.pdf", some "abc"⟩] [] "2024-01-01 10:00:00",
        e.id = inferredId ⟨"public", "a.pdf", some "abc"⟩ ∧
          e.title = inferredTitle ⟨"public", "a.pdf", some "abc"⟩ ∧
          e.redirect_html_path = inferredRedirect ⟨"public", "a.pdf", some "abc"⟩ ∧
          e.current_target_file = targetOf ⟨"public", "a.pdf", some "abc"⟩ ∧
          e.last_updated_at = "2024-01-01 10:00:00" ∧ e.file_sha = "abc") :=
  (c8_fresh_entries_added_and_orphans_dropped
      [⟨"public", "a.pdf", some "abc"⟩] [] "2024-01-01 10:00:00").1
    ⟨"public", "a.pdf", some "abc"⟩ (by decide) "abc" (by decide) (by decide)

theorem subAllF_congr_fuel (m : List Char → Option Nat) (r : List Char) :
    ∀ (fuel1 : Nat) (s : List Char) (fuel2 : Nat), s.length ≤ fuel1 → s.length ≤ fuel2 →
      subAllF m r fuel1 s = subAllF m r fuel2 s := by
  intro fuel1
  induction fuel1 with
  | zero =>
    intro s fuel2 h1 _
    have hs : s = [] := List.length_eq_zero.mp (Nat.le_zero.mp h1)
    subst hs
    cases fuel2 <;> rfl
  | succ f ih =>
    intro s fuel2 h1 h2
    cases s with
    | nil => cases fuel2 <;> rfl
    | cons c cs =>
      cases fuel2 with
      | zero => exact absurd h2 (by simp)
      | succ f2 =>
        have h1' : cs.length ≤ f := by simpa using h1
        have h2' : cs.length ≤ f2 := by simpa using h2
        cases hm : m (c :: cs) with
        | none =>
          simp only [subAllF, hm]
          rw [ih cs f2 h1' h2']
        | some n =>
          cases n with
          | zero =>
            simp only [subAllF, hm]
            rw [ih cs f2 h1' h2']
          | succ k =>
            simp only [subAllF, hm]
            rw [ih (cs.drop k) f2 (by simp only [List.length_drop]; omega)
              (by simp only [List.length_drop]; omega)]

theorem subAll_cons_of_none (m : List Char → Option Nat) (r : List Char) (c : Char)
    (cs : List Char) (h : m (c :: cs) = none) :
    subAll m r (c :: cs) = c :: subAll m r cs := by
  simp only [subAll, List.length_cons, subAllF, h]

theorem subAll_cons_of_some (m : List Char → Option Nat) (r : List Char) (c : Char)
    (cs : List Char) (n : Nat) (h : m (c :: cs) = some (n + 1)) :
    subAll m r (c :: cs) = r ++ subAll m r (cs.drop n) := by
  simp only [subAll, List.length_cons, subAllF, h]
  congr 1
  exact subAllF_congr_fuel m r cs.length (cs.drop n) (cs.drop n).length
    (by simp only [List.length_drop]; omega) (Nat.le_refl _)

theorem subAll_id (m : List Char → Option Nat) (r : List Char) :
    ∀ s : List Char, (∀ c cs, (c :: cs) <:+ s → m (c :: cs) = none) → subAll m r s = s := by
  intro s
  induction s with
  | nil => intro _; rfl
  | cons c cs ih =>
    intro h
    rw [subAll_cons_of_none _ _ _ _ (h c cs (List.suffix_refl _)), ih]
    intro d ds hsuf
    exact h d ds (hsuf.trans (List.suffix_cons c cs))

theorem subAll_cls_eq_filter (q : Char → Bool) :
    ∀ s : List Char, subAll (clsMatchAt q) [] s = s.filter (fun c => !q c) := by
  intro s
  induction s with
  | nil => rfl
  | cons c cs ih =>
    by_cases hq : q c = true
    · rw [subAll_cons_of_some _ _ _ _ 0 (by simp [clsMatchAt, hq])]
      simp [List.filter_cons, hq, ih]
    · rw [subAll_cons_of_none _ _ _ _ (by simp [clsMatchAt, hq])]
      simp [List.filter_cons, hq, ih]

theorem countLeading_cons_pos {p : Char → Bool} {c : Char} (cs : List Char) (h : p c = true) :
    countLeading p (c :: cs) = countLeading p cs + 1 := by
  simp [countLeading, h]

theorem countLeading_cons_neg {p : Char → Bool} {c : Char} (cs : List Char) (h : p c = false) :
    countLeading p (c :: cs) = 0 := by
  simp [countLeading, h]

theorem drop_countLeading_eq_dropWhile (p : Char → Bool) :
    ∀ s : List Char, s.drop (countLeading p s) = s.dropWhile p := by
  intro s
  induction s with
  | nil => rfl
  | cons c cs ih =>
    by_cases h : p c = true <;> simp [countLeading, List.dropWhile, h, ih]

theorem head?_dropWhile_not (p : Char → Bool) :
    ∀ s : List Char, ∀ d, (s.dropWhile p).head? = some d → p d = false := by
  intro s
  induction s with
  | nil => simp [List.dropWhile]
  | cons c cs ih =>
    intro d
    by_cases h : p c = true
    · simp only [List.dropWhile_cons, h, if_true]
      exact ih d
    · simp only [List.dropWhile_cons, h, if_false, Bool.false_eq_true, List.head?_cons]
      intro hd
      cases hd
      simpa using h

theorem runMatchAt_cons_neg {p : Char → Bool} {c : Char} (cs : List Char) (h : p c = false) :
    runMatchAt p (c :: cs) = none := by
  simp [runMatchAt, countLeading, h]

theorem runMatchAt_cons_pos {p : Char → Bool} {c : Char} (cs : List Char) (h : p c = true) :
    runMatchAt p (c :: cs) = some (countLeading p cs + 1) := by
  simp [runMatchAt, countLeading, h]

theorem collapse_cons_neg {p : Char → Bool} (r : List Char) {c : Char} (cs : List Char)
    (h : p c = false) :
    subAll (runMatchAt p) r (c :: cs) = c :: subAll (runMatchAt p) r cs :=
  subAll_cons_of_none _ _ _ _ (runMatchAt_cons_neg cs h)

theorem collapse_cons_pos {p : Char → Bool} (r : List Char) {c : Char} (cs : List Char)
    (h : p c = true) :
    subAll (runMatchAt p) r (c :: cs) = r ++ subAll (runMatchAt p) r (cs.dropWhile p) := by
  rw [subAll_cons_of_some _ _ _ _ (countLeading p cs) (runMatchAt_cons_pos cs h),
    drop_countLeading_eq_dropWhile]

theorem mem_collapse {p : Char → Bool} {r : Char} :
    ∀ s : List Char, ∀ c ∈ subAll (runMatchAt p) [r] s, c = r ∨ (c ∈ s ∧ p c = false) := by
  have H : ∀ n : Nat, ∀ s : List Char, s.length ≤ n →
      ∀ c ∈ subAll (runMatchAt p) [r] s, c = r ∨ (c ∈ s ∧ p c = false) := by
    intro n
    induction n with
    | zero =>
      intro s hs
      have : s = [] := List.length_eq_zero.mp (Nat.le_zero.mp hs)
      subst this
      simp [subAll, subAllF]
    | succ k ih =>
      intro s hs c hc
      cases s with
      | nil => simp [subAll, subAllF] at hc
      | cons a cs =>
        cases ha : p a with
        | true =>
          rw [collapse_cons_pos [r] cs ha] at hc
          rcases List.mem_append.mp hc with hc1 | hc2
          · left
            simpa using hc1
          · rcases ih (cs.dropWhile p)
                (le_trans (List.dropWhile_sublist p).length_le (by simpa using hs))
                c hc2 with h1 | ⟨h2, h3⟩
            · exact Or.inl h1
            · exact Or.inr ⟨List.mem_cons_of_mem _ ((List.dropWhile_sublist p).subset h2), h3⟩
        | false =>
          rw [collapse_cons_neg [r] cs ha] at hc
          rcases List.mem_cons.mp hc with hc1 | hc2
          · subst hc1
            exact Or.inr ⟨List.mem_cons_self _ _, ha⟩
          · rcases ih cs (by simpa using hs) c hc2 with h1 | ⟨h2, h3⟩
            · exact Or.inl h1
            · exact Or.inr ⟨List.mem_cons_of_mem _ h2, h3⟩
  intro s
  exact H s.length s (Nat.le_refl _)

theorem noAdjR_tail {r a : Char} {l : List Char} (h : noAdjR r (a :: l) = true) :
    noAdjR r l = true := by
  cases l with
  | nil => rfl
  | cons b rest =>
    simp only [noAdjR, Bool.and_eq_true] at h
    exact h.2

theorem noAdjR_pair {r a b : Char} {l : List Char} (h : noAdjR r (a :: b :: l) = true) :
    ¬(a = r ∧ b = r) := by
  simp only [noAdjR, Bool.and_eq_true, Bool.not_eq_true', Bool.and_eq_false_iff] at h
  intro ⟨h1, h2⟩
  rcases h.1 with hh | hh <;> simp [h1, h2] at hh

theorem noAdjR_cons_of_left_ne {r a : Char} {l : List Char} (h : a ≠ r)
    (hl : noAdjR r l = true) : noAdjR r (a :: l) = true := by
  cases l with
  | nil => rfl
  | cons b rest => simp [noAdjR, h, hl]

theorem noAdjR_cons_of_head_ne {r a : Char} {l : List Char}
    (h : ∀ d, l.head? = some d → d ≠ r) (hl : noAdjR r l = true) :
    noAdjR r (a :: l) = true := by
  cases l with
  | nil => rfl
  | cons b rest => simp [noAdjR, h b rfl, hl]

theorem collapse_head_not_p {p : Char → Bool} {r : List Char} (s : List Char)
    (hs : ∀ d, s.head? = some d → p d = false) :
    ∀ d, (subAll (runMatchAt p) r s).head? = some d → p d = false := by
  cases s with
  | nil => simp [subAll, subAllF]
  | cons c cs =>
    have hc : p c = false := hs c rfl
    rw [collapse_cons_neg r cs hc]
    intro d hd
    cases hd
    exact hc

theorem noAdjR_collapse {p : Char → Bool} {r : Char} (hpr : p r = true) :
    ∀ s : List Char, noAdjR r (subAll (runMatchAt p) [r] s) = true := by
  have H : ∀ n : Nat, ∀ s : List Char, s.length ≤ n →
      noAdjR r (subAll (runMatchAt p) [r] s) = true := by
    intro n
    induction n with
    | zero =>
      intro s hs
      have : s = [] := List.length_eq_zero.mp (Nat.le_zero.mp hs)
      subst this
      rfl
    | succ k ih =>
      intro s hs
      cases s with
      | nil => rfl
      | cons a cs =>
        cases ha : p a with
        | true =>
          rw [collapse_cons_pos [r] cs ha]
          simp only [List.singleton_append]
          refine noAdjR_cons_of_head_ne ?_
            (ih (cs.dropWhile p)
              (le_trans (List.dropWhile_sublist p).length_le (by simpa using hs)))
          intro d hd hdr
          subst hdr
          have hpf := collapse_head_not_p (cs.dropWhile p) (head?_dropWhile_not p cs) d hd
          rw [hpf] at hpr
          exact Bool.false_ne_true hpr
        | false =>
          rw [collapse_cons_neg [r] cs ha]
          refine noAdjR_cons_of_left_ne ?_ (ih cs (by simpa using hs))
          intro har
          subst har
          rw [hpr] at ha
          cases ha
  intro s
  exact H s.length s (Nat.le_refl _)

theorem collapse_id {p : Char → Bool} {r : Char} :
    ∀ s : List Char, (∀ c ∈ s, p c = true → c = r) → noAdjR r s = true →
      subAll (runMatchAt p) [r] s = s := by
  have H : ∀ n : Nat, ∀ s : List Char, s.length ≤ n →
      (∀ c ∈ s, p c = true → c = r) → noAdjR r s = true →
      subAll (runMatchAt p) [r] s = s := by
    intro n
    induction n with
    | zero =>
      intro s hs _ _
      have : s = [] := List.length_eq_zero.mp (Nat.le_zero.mp hs)
      subst this
      rfl
    | succ k ih =>
      intro s hs hmem hadj
      cases s with
      | nil => rfl
      | cons a cs =>
        cases ha : p a with
        | false =>
          rw [collapse_cons_neg [r] cs ha]
          rw [ih cs (by simpa using hs)
            (fun c hc hpc => hmem c (List.mem_cons_of_mem _ hc) hpc) (noAdjR_tail hadj)]
        | true =>
          have har : a = r := hmem a (List.mem_cons_self _ _) ha
          have hcl : countLeading p cs = 0 := by
            cases cs with
            | nil => rfl
            | cons b rest =>
              cases hb : p b with
              | false => exact countLeading_cons_neg rest hb
              | true =>
                have hbr : b = r :=
                  hmem b (List.mem_cons_of_mem _ (List.mem_cons_self _ _)) hb
                exact absurd ⟨har, hbr⟩ (noAdjR_pair hadj)
          have hrun : runMatchAt p (a :: cs) = some (0 + 1) := by
            rw [runMatchAt_cons_pos cs ha, hcl]
          rw [subAll_cons_of_some _ _ _ _ 0 hrun]
          simp only [List.drop_zero, List.singleton_append]
          rw [ih cs (by simpa using hs)
            (fun c hc hpc => hmem c (List.mem_cons_of_mem _ hc) hpc) (noAdjR_tail hadj)]
          rw [har]
  intro s
  exact H s.length s (Nat.le_refl _)

theorem stripWhile_subset (p : Char → Bool) (s : List Char) : stripWhile p s ⊆ s := by
  intro c hc
  simp only [stripWhile, List.mem_reverse] at hc
  have h1 := (List.dropWhile_sublist p).subset hc
  rw [List.mem_reverse] at h1
  exact (List.dropWhile_sublist p).subset h1

theorem stripWhile_head_not (p : Char → Bool) (s : List Char) :
    ∀ d, (stripWhile p s).head? = some d → p d = false := by
  intro d hd
  rw [stripWhile] at hd
  have hpre : ((s.dropWhile p).reverse.dropWhile p).reverse <+: s.dropWhile p := by
    have hsuf := List.dropWhile_suffix (l := (s.dropWhile p).reverse) p
    rw [← List.reverse_prefix] at hsuf
    simpa using hsuf
  obtain ⟨t, ht⟩ := hpre
  cases hres : ((s.dropWhile p).reverse.dropWhile p).reverse with
  | nil => rw [hres] at hd; cases hd
  | cons x xs =>
    rw [hres] at hd ht
    cases hd
    have : (s.dropWhile p).head? = some d := by
      rw [← ht]
      rfl
    exact head?_dropWhile_not p s d this

theorem stripWhile_last_not (p : Char → Bool) (s : List Char) :
    ∀ d, (stripWhile p s).getLast? = some d → p d = false := by
  intro d hd
  rw [stripWhile, List.getLast?_reverse] at hd
  exact head?_dropWhile_not p (s.dropWhile p).reverse d hd

theorem dropWhile_eq_self_of_head (p : Char → Bool) (s : List Char)
    (h : ∀ d, s.head? = some d → p d = false) : s.dropWhile p = s := by
  cases s with
  | nil => rfl
  | cons c cs => simp [List.dropWhile_cons, h c rfl]

theorem stripWhile_eq_self (p : Char → Bool) (s : List Char)
    (h1 : ∀ d, s.head? = some d → p d = false)
    (h2 : ∀ d, s.getLast? = some d → p d = false) : stripWhile p s = s := by
  rw [stripWhile, dropWhile_eq_self_of_head p s h1,
    dropWhile_eq_self_of_head p s.reverse (by
      intro d hd
      rw [List.head?_reverse] at hd
      exact h2 d hd),
    List.reverse_reverse]

theorem noAdjR_of_append_left {r : Char} :
    ∀ (a b : List Char), noAdjR r (a ++ b) = true → noAdjR r a = true := by
  intro a
  induction a with
  | nil => intro b _; rfl
  | cons x l ih =>
    intro b h
    cases l with
    | nil => rfl
    | cons y rest =>
      simp only [List.cons_append, noAdjR, Bool.and_eq_true] at h ⊢
      exact ⟨h.1, by
        have := ih b h.2
        simpa using this⟩

theorem noAdjR_suffix {r : Char} {l1 l2 : List Char} (h : l1 <:+ l2)
    (hn : noAdjR r l2 = true) : noAdjR r l1 = true := by
  obtain ⟨t, ht⟩ := h
  subst ht
  induction t with
  | nil => exact hn
  | cons a t ih => exact ih (noAdjR_tail hn)

theorem noAdjR_isPre {r : Char} {l1 l2 : List Char} (h : l1 <+: l2)
    (hn : noAdjR r l2 = true) : noAdjR r l1 = true := by
  obtain ⟨t, ht⟩ := h
  subst ht
  exact noAdjR_of_append_left l1 t hn

theorem noAdjR_stripWhile {p : Char → Bool} {r : Char} {s : List Char}
    (h : noAdjR r s = true) : noAdjR r (stripWhile p s) = true := by
  have hu : noAdjR r (s.dropWhile p) = true := noAdjR_suffix (List.dropWhile_suffix p) h
  have hpre : ((s.dropWhile p).reverse.dropWhile p).reverse <+: s.dropWhile p := by
    have hsuf := List.dropWhile_suffix (l := (s.dropWhile p).reverse) p
    rw [← List.reverse_prefix] at hsuf
    simpa using hsuf
  exact noAdjR_isPre hpre hu

theorem map_eq_self_of_mem {f : Char → Char} {s : List Char}
    (h : ∀ c ∈ s, f c = c) : s.map f = s := by
  induction s with
  | nil => rfl
  | cons c cs ih =>
    rw [List.map_cons, h c (List.mem_cons_self _ _), ih
      (fun d hd => h d (List.mem_cons_of_mem _ hd))]

theorem filter_eq_self_of_mem {q : Char → Bool} {s : List Char}
    (h : ∀ c ∈ s, q c = true) : s.filter q = s := by
  induction s with
  | nil => rfl
  | cons c cs ih =>
    rw [List.filter_cons, if_pos (h c (List.mem_cons_self _ _)), ih
      (fun d hd => h d (List.mem_cons_of_mem _ hd))]

theorem charOfNat_toNat (n : Nat) (h1 : n < 55296) : (Char.ofNat n).toNat = n := by
  have hval : n.isValidChar := Or.inl h1
  simp only [Char.ofNat, dif_pos hval]
  simp [Char.ofNatAux, Char.toNat, UInt32.toNat]

theorem pyLower_isUpper (c : Char) : (pyLower c).isUpper = false := by
  unfold pyLower Char.toLower Char.isUpper
  by_cases h : c.toNat ≥ 65 ∧ c.toNat ≤ 90
  · rw [if_pos h]
    have htn : (Char.ofNat (c.toNat + 32)).toNat = c.toNat + 32 :=
      charOfNat_toNat _ (by omega)
    have hno : ¬((Char.ofNat (c.toNat + 32)).val ≤ 90) := by
      show ¬((Char.ofNat (c.toNat + 32)).val.toNat ≤ (90 : UInt32).toNat)
      have h90 : (90 : UInt32).toNat = 90 := by decide
      rw [h90]
      show ¬((Char.ofNat (c.toNat + 32)).toNat ≤ 90)
      omega
    simp [hno]
  · rw [if_neg h]
    have hnot : ¬(65 ≤ c.val ∧ c.val ≤ 90) := by
      intro ⟨h1, h2⟩
      exact h ⟨h1, h2⟩
    by_cases h1 : (65 : UInt32) ≤ c.val
    · have h2 : ¬(c.val ≤ 90) := fun hh => hnot ⟨h1, hh⟩
      simp [h2]
    · simp [h1]

theorem pyLower_eq_self_of_not_upper {c : Char} (h : c.isUpper = false) :
    pyLower c = c := by
  unfold pyLower Char.toLower
  rw [if_neg]
  intro ⟨h1, h2⟩
  unfold Char.isUpper at h
  have hge : (65 : UInt32) ≤ c.val := h1
  have hle : c.val ≤ (90 : UInt32) := h2
  simp [hge, hle] at h

theorem slugifyL_mem (s : List Char) :
    ∀ c ∈ slugifyL s, c = '-' ∨
      (c ∈ s.map pyLower ∧ isWordChar c = true ∧ isSepClass c = false) := by
  intro c hc
  unfold slugifyL at hc
  have hc2 := stripWhile_subset _ _ hc
  rcases mem_collapse _ c hc2 with h1 | ⟨h2, h3⟩
  · exact Or.inl h1
  · rw [subAll_cls_eq_filter] at h2
    have hkeep := List.of_mem_filter h2
    have hmem := List.mem_of_mem_filter h2
    simp only [Bool.not_not] at hkeep
    refine Or.inr ⟨hmem, ?_, h3⟩
    have hnsp : pyIsSpace c = false := by
      rcases hb : pyIsSpace c with _ | _
      · rfl
      · exfalso
        rw [isSepClass, hb] at h3
        simp at h3
    have hnh : (c = '-') = False := by
      by_cases hch : c = '-'
      · exfalso
        rw [isSepClass, hch] at h3
        simp at h3
      · simp [hch]
    simp [hnsp, hnh] at hkeep
    exact hkeep

theorem slugifyL_fixed (s : List Char) : slugifyL (slugifyL s) = slugifyL s := by
  have hmem := slugifyL_mem s
  have hlower : ∀ c ∈ slugifyL s, pyLower c = c := by
    intro c hc
    rcases hmem c hc with h1 | ⟨h2, _, _⟩
    · rw [h1]; decide
    · obtain ⟨a, _, ha⟩ := List.mem_map.mp h2
      rw [← ha]
      exact pyLower_eq_self_of_not_upper (by rw [ha, ← ha]; exact pyLower_isUpper a)
  have hword : ∀ c ∈ slugifyL s, (isWordChar c || pyIsSpace c || decide (c = '-')) = true := by
    intro c hc
    rcases hmem c hc with h1 | ⟨_, h2, _⟩
    · rw [h1]; decide
    · simp [h2]
  have hsep : ∀ c ∈ slugifyL s, isSepClass c = true → c = '-' := by
    intro c hc hs
    rcases hmem c hc with h1 | ⟨_, _, h3⟩
    · exact h1
    · rw [hs] at h3; cases h3
  have hadj : noAdjR '-' (slugifyL s) = true := by
    unfold slugifyL
    exact noAdjR_stripWhile (noAdjR_collapse (by decide) _)
  have hhead : ∀ d, (slugifyL s).head? = some d → d ≠ '-' := by
    intro d hd
    have := stripWhile_head_not (fun c => decide (c = '-')) _ d (by
      unfold slugifyL at hd
      exact hd)
    simpa using this
  have hlast : ∀ d, (slugifyL s).getLast? = some d → d ≠ '-' := by
    intro d hd
    have := stripWhile_last_not (fun c => decide (c = '-')) _ d (by
      unfold slugifyL at hd
      exact hd)
    simpa using this
  conv_lhs => rw [slugifyL]
  rw [map_eq_self_of_mem hlower, subAll_cls_eq_filter,
    filter_eq_self_of_mem (by
      intro c hc
      simp only [Bool.not_not]
      exact hword c hc),
    collapse_id _ hsep hadj,
    stripWhile_eq_self _ _
      (fun d hd => by simpa using hhead d hd)
      (fun d hd => by simpa using hlast d hd)]

/-- C4: `slugify` is idempotent, and its output consists solely of hyphens
and non-uppercase alphanumeric characters (in the ASCII model of `\w` and
`str.lower`). -/
theorem c4_slugify_idempotent_and_charset :
    ∀ s : String, slugify (slugify s) = slugify s ∧
      ∀ c ∈ (slugify s).data, c = '-' ∨ (c.isAlphanum = true ∧ c.isUpper = false) := by
  intro s
  constructor
  · show (⟨slugifyL (slugifyL s.data)⟩ : String) = ⟨slugifyL s.data⟩
    rw [slugifyL_fixed]
  · intro c hc
    rcases slugifyL_mem s.data c hc with h1 | ⟨h2, h3, h4⟩
    · exact Or.inl h1
    · refine Or.inr ⟨?_, ?_⟩
      · rw [isWordChar] at h3
        rcases Bool.or_eq_true_iff.mp h3 with h5 | h5
        · exact h5
        · exfalso
          have hc' : c = '_' := by simpa using h5
          rw [isSepClass, hc'] at h4
          simp at h4
      · obtain ⟨a, _, ha⟩ := List.mem_map.mp h2
        rw [← ha]
        exact pyLower_isUpper a

/-- Witness for C4 at a concrete input: `A b_c` slugifies to `a-b-c`, which
is a fixed point, and its member `a` satisfies the character condition. -/
theorem c4_slugify_witness :
    slugify (slugify "A b_c") = slugify "A b_c" ∧
      ('a' = '-' ∨ ('a'.isAlphanum = true ∧ 'a'.isUpper = false)) :=
  ⟨(c4_slugify_idempotent_and_charset "A b_c").1,
    (c4_slugify_idempotent_and_charset "A b_c").2 'a' (by decide)⟩

theorem flatMap_nil_of {α β : Type} (l : List α) (f : α → List β) (h : ∀ x, f x = []) :
    l.flatMap f = [] := by
  induction l with
  | nil => rfl
  | cons x xs ih => simp [List.flatMap_cons, h, ih]

theorem reMatches_cat_nil_right (a b : RE) (s : List Char)
    (h : ∀ n, reMatches b (s.drop n) = []) : reMatches (.cat a b) s = [] := by
  simp only [reMatches]
  exact flatMap_nil_of _ _ (fun n => by rw [h n]; rfl)

theorem reMatches_cat_nil_left (a b : RE) (s : List Char)
    (h : reMatches a s = []) : reMatches (.cat a b) s = [] := by
  simp [reMatches, h]

theorem reMatches_alt_nil {a b : RE} {s : List Char}
    (h1 : reMatches a s = []) (h2 : reMatches b s = []) : reMatches (.alt a b) s = [] := by
  simp [reMatches, h1, h2]

theorem exact_digit_nil (k : Nat) (s : List Char) (h : ∀ c ∈ s, pyIsDigit c = false) :
    reMatches (.exactly pyIsDigit (k + 1)) s = [] := by
  cases s with
  | nil => simp [reMatches, checkExact]
  | cons c cs => simp [reMatches, checkExact, h c (List.mem_cons_self _ _)]

theorem cls_apos_nil (s : List Char) (h : ∀ c ∈ s, ¬(c = apos)) :
    reMatches (.cls (· = apos)) s = [] := by
  cases s with
  | nil => rfl
  | cons c cs => simp [reMatches, h c (List.mem_cons_self _ _)]

theorem aposYear_nil (s : List Char) (ha : ∀ c ∈ s, ¬(c = apos)) :
    reMatches aposYearCore s = [] := by
  unfold aposYearCore
  exact reMatches_cat_nil_left _ _ _ (cls_apos_nil s ha)

theorem pat1_nomatch (s : List Char) (hd : ∀ c ∈ s, pyIsDigit c = false)
    (ha : ∀ c ∈ s, ¬(c = apos)) : firstMatchLen pat1 s = none := by
  have hb1 : reMatches
      (catList [leadInRE, monthRE, .rep1 pyIsSpace] (.exactly pyIsDigit 4)) s = [] := by
    simp only [catList, List.foldr]
    apply reMatches_cat_nil_right
    intro n
    apply reMatches_cat_nil_right
    intro m
    apply reMatches_cat_nil_right
    intro k
    exact exact_digit_nil _ _ (fun c hc =>
      hd c (List.drop_subset _ _ (List.drop_subset _ _ (List.drop_subset _ _ hc))))
  have hb2 := aposYear_nil s ha
  simp [firstMatchLen, pat1, hb1, hb2]

theorem pat2_nomatch (s : List Char) (hd : ∀ c ∈ s, pyIsDigit c = false) :
    firstMatchLen pat2 s = none := by
  have hb : reMatches
      (catList [leadInRE, .exactly pyIsDigit 4, .cls (· = '-'), .exactly pyIsDigit 2,
        .opt (.cat (.cls (· = '-')) (.exactly pyIsDigit 2))] closeRE) s = [] := by
    simp only [catList, List.foldr]
    apply reMatches_cat_nil_right
    intro n
    exact reMatches_cat_nil_left _ _ _
      (exact_digit_nil _ _ (fun c hc => hd c (List.drop_subset _ _ hc)))
  simp [firstMatchLen, pat2, hb]

theorem pat3_nomatch (s : List Char) (hd : ∀ c ∈ s, pyIsDigit c = false) :
    firstMatchLen pat3 s = none := by
  have hb : reMatches (catList [leadInRE, .exactly pyIsDigit 8] closeRE) s = [] := by
    simp only [catList, List.foldr]
    apply reMatches_cat_nil_right
    intro n
    exact reMatches_cat_nil_left _ _ _
      (exact_digit_nil _ _ (fun c hc => hd c (List.drop_subset _ _ hc)))
  simp [firstMatchLen, pat3, hb]

theorem dayRE_nil (s : List Char) (hd : ∀ c ∈ s, pyIsDigit c = false) :
    reMatches dayRE s = [] := by
  unfold dayRE
  exact reMatches_cat_nil_left _ _ _
    (reMatches_alt_nil (exact_digit_nil _ _ hd) (exact_digit_nil _ _ hd))

theorem pat4_nomatch (s : List Char) (hd : ∀ c ∈ s, pyIsDigit c = false)
    (ha : ∀ c ∈ s, ¬(c = apos)) : firstMatchLen pat4 s = none := by
  have hb1 : reMatches
      (catList [leadInRE, dayRE, .rep1 pyIsSpace, monthRE, .rep1 pyIsSpace]
        (.exactly pyIsDigit 4)) s = [] := by
    simp only [catList, List.foldr]
    apply reMatches_cat_nil_right
    intro n
    exact reMatches_cat_nil_left _ _ _
      (dayRE_nil _ (fun c hc => hd c (List.drop_subset _ _ hc)))
  have hb2 := aposYear_nil s ha
  simp [firstMatchLen, pat4, hb1, hb2]

theorem pat5_nomatch (s : List Char) (hd : ∀ c ∈ s, pyIsDigit c = false)
    (ha : ∀ c ∈ s, ¬(c = apos)) : firstMatchLen pat5 s = none := by
  have hb1 : reMatches
      (catList [leadInRE, monthRE, .rep1 pyIsSpace, dayRE, .opt (.cls (· = ',')),
        .rep1 pyIsSpace] (.exactly pyIsDigit 4)) s = [] := by
    simp only [catList, List.foldr]
    apply reMatches_cat_nil_right
    intro n
    apply reMatches_cat_nil_right
    intro m
    apply reMatches_cat_nil_right
    intro k
    exact reMatches_cat_nil_left _ _ _
      (dayRE_nil _ (fun c hc =>
        hd c (List.drop_subset _ _ (List.drop_subset _ _ (List.drop_subset _ _ hc)))))
  have hb2 := aposYear_nil s ha
  simp [firstMatchLen, pat5, hb1, hb2]

theorem pat6_nomatch (s : List Char) (hd : ∀ c ∈ s, pyIsDigit c = false)
    (ha : ∀ c ∈ s, ¬(c = apos)) : firstMatchLen pat6 s = none := by
  have hb1 : reMatches (catList [leadInRE] (.exactly pyIsDigit 4)) s = [] := by
    simp only [catList, List.foldr]
    apply reMatches_cat_nil_right
    intro n
    exact exact_digit_nil _ _ (fun c hc => hd c (List.drop_subset _ _ hc))
  have hb2 := aposYear_nil s ha
  simp [firstMatchLen, pat6, hb1, hb2]

theorem hyphMatchAt_none (t : List Char) (h : ∀ c ∈ t, ¬(c = '-')) :
    hyphMatchAt t = none := by
  cases hd : t.drop (countLeading pyIsSpace t) with
  | nil => simp only [hyphMatchAt, hd]
  | cons d rest =>
    have hdm : d ∈ t := by
      refine List.drop_subset (countLeading pyIsSpace t) t ?_
      rw [hd]
      exact List.mem_cons_self _ _
    simp only [hyphMatchAt, hd]
    rw [if_neg (h d hdm)]

theorem splitextL_no_dot (t : List Char) (h : ∀ c ∈ t, ¬(c = '.')) :
    splitextL t = (t, []) := by
  have hr : rfindIdx '.' t = none := by
    unfold rfindIdx
    have hnone : t.reverse.findIdx? (fun x => decide (x = '.')) = none := by
      rw [List.findIdx?_eq_none_iff]
      intro x hx
      simp [h x (List.mem_reverse.mp hx)]
    rw [hnone]
  unfold splitextL
  rw [hr]
  cases hs : rfindIdx '/' t with
  | none => simp
  | some i =>
    have hni : ¬((i : Int) < -1) := by omega
    simp [hni]

theorem rdpL_sep_space (s : List Char) :
    ∀ c ∈ removeDatePatternsL s, isSepClass c = true → c = ' ' := by
  intro c hc hcs
  simp only [removeDatePatternsL] at hc
  have hc1 := stripWhile_subset _ _ hc
  have hc2 := stripWhile_subset _ _ hc1
  rcases mem_collapse _ c hc2 with h1 | ⟨h2, h3⟩
  · exact h1
  · have hc3 := stripWhile_subset _ _ h2
    rcases mem_collapse _ c hc3 with h4 | ⟨_, h5⟩
    · exact h4
    · rw [hcs] at h5
      cases h5

theorem cleanL_sep_space (s : List Char) :
    ∀ c ∈ cleanFilenameForTitleL s, isSepClass c = true → c = ' ' := by
  intro c hc hcs
  simp only [cleanFilenameForTitleL] at hc
  have hv0 : ∀ c ∈ (removeDatePatternsL (splitextL s).1).map
      (fun c => if c = '_' then ' ' else c), ¬(c = '-') := by
    intro x hx hx'
    obtain ⟨a, ham, hae⟩ := List.mem_map.mp hx
    by_cases ha' : a = '_'
    · rw [if_pos ha'] at hae
      rw [← hae] at hx'
      exact absurd hx' (by decide)
    · rw [if_neg ha'] at hae
      rw [← hae] at hx'
      have h2 := rdpL_sep_space _ a ham (by rw [hx']; decide)
      rw [hx'] at h2
      exact absurd h2 (by decide)
  rw [subAll_id hyphMatchAt _ _
    (fun d ds hsuf => hyphMatchAt_none _ (fun x hx => hv0 x (hsuf.subset hx)))] at hc
  have hc1 := stripWhile_subset _ _ hc
  rcases mem_collapse _ c hc1 with h1 | ⟨h2, _⟩
  · exact h1
  · obtain ⟨a, ham, hae⟩ := List.mem_map.mp h2
    by_cases ha' : a = '_'
    · rw [if_pos ha'] at hae
      exact hae.symm
    · rw [if_neg ha'] at hae
      rw [← hae]
      exact rdpL_sep_space _ a ham (by rw [hae]; exact hcs)

theorem cleanL_noAdj (s : List Char) : noAdjR ' ' (cleanFilenameForTitleL s) = true := by
  simp only [cleanFilenameForTitleL]
  exact noAdjR_stripWhile (noAdjR_collapse (by decide) _)

theorem cleanL_head (s : List Char) :
    ∀ d, (cleanFilenameForTitleL s).head? = some d → pyIsSpace d = false := by
  intro d hd
  simp only [cleanFilenameForTitleL] at hd
  exact stripWhile_head_not _ _ d hd

theorem cleanL_last (s : List Char) :
    ∀ d, (cleanFilenameForTitleL s).getLast? = some d → pyIsSpace d = false := by
  intro d hd
  simp only [cleanFilenameForTitleL] at hd
  exact stripWhile_last_not _ _ d hd

theorem removeDatePatternsL_fixed (t : List Char)
    (hd : ∀ c ∈ t, pyIsDigit c = false) (ha : ∀ c ∈ t, ¬(c = apos))
    (hsep : ∀ c ∈ t, isSepClass c = true → c = ' ')
    (hadj : noAdjR ' ' t = true)
    (hhead : ∀ d, t.head? = some d → pyIsSpace d = false)
    (hlast : ∀ d, t.getLast? = some d → pyIsSpace d = false) :
    removeDatePatternsL t = t := by
  have hstripSp : stripWhile pyIsSpace t = t := stripWhile_eq_self _ _ hhead hlast
  have hid : ∀ pat : List (RE × Bool),
      (∀ s' : List Char, (∀ c ∈ s', pyIsDigit c = false) → (∀ c ∈ s', ¬(c = apos)) →
        firstMatchLen pat s' = none) →
      stripWhile pyIsSpace (subAll (firstMatchLen pat) [] t) = t := by
    intro pat hpat
    rw [subAll_id _ _ t (fun c cs hsuf => hpat _
      (fun x hx => hd x (hsuf.subset hx)) (fun x hx => ha x (hsuf.subset hx)))]
    exact hstripSp
  have hstripset : ∀ d ∈ t, pyIsSpace d = false → isStripSet d = false := by
    intro d hdm hds
    unfold isStripSet
    have h1 : ¬(d = ' ') := by
      intro h
      rw [h] at hds
      exact absurd hds (by decide)
    have h2 : ¬(d = '-') := by
      intro h
      have := hsep d hdm (by rw [h]; decide)
      rw [h] at this
      cases this
    have h3 : ¬(d = '_') := by
      intro h
      have := hsep d hdm (by rw [h]; decide)
      rw [h] at this
      cases this
    simp [h1, h2, h3]
  have hcol1 : subAll (runMatchAt isSepClass) [' '] t = t := collapse_id t hsep hadj
  have hmemLast : ∀ d, t.getLast? = some d → d ∈ t := by
    intro d hdl
    have hrev := List.mem_of_mem_head? (l := t.reverse) (by
      rw [List.head?_reverse]
      exact hdl)
    exact List.mem_reverse.mp hrev
  have hstrip2 : stripWhile isStripSet t = t :=
    stripWhile_eq_self _ _
      (fun d hdd => hstripset d (List.mem_of_mem_head? hdd) (hhead d hdd))
      (fun d hdd => hstripset d (hmemLast d hdd) (hlast d hdd))
  have hcol2 : subAll (runMatchAt pyIsSpace) [' '] t = t :=
    collapse_id t (fun c hc hp => hsep c hc (by simp [isSepClass, hp])) hadj
  simp only [removeDatePatternsL, datePats, List.foldl_cons, List.foldl_nil]
  rw [hid pat1 pat1_nomatch,
    hid pat2 (fun s' hd' _ => pat2_nomatch s' hd'),
    hid pat3 (fun s' hd' _ => pat3_nomatch s' hd'),
    hid pat4 pat4_nomatch, hid pat5 pat5_nomatch, hid pat6 pat6_nomatch,
    hcol1, hstrip2, hcol2, hstripSp, hstripSp]

theorem cleanL_fixed (t : List Char)
    (hdot : ∀ c ∈ t, ¬(c = '.'))
    (hd : ∀ c ∈ t, pyIsDigit c = false) (ha : ∀ c ∈ t, ¬(c = apos))
    (hsep : ∀ c ∈ t, isSepClass c = true → c = ' ')
    (hadj : noAdjR ' ' t = true)
    (hhead : ∀ d, t.head? = some d → pyIsSpace d = false)
    (hlast : ∀ d, t.getLast? = some d → pyIsSpace d = false) :
    cleanFilenameForTitleL t = t := by
  have hnu : ∀ c ∈ t, ¬(c = '_') := by
    intro c hc h
    have := hsep c hc (by rw [h]; decide)
    rw [h] at this
    exact absurd this (by decide)
  have hnh : ∀ c ∈ t, ¬(c = '-') := by
    intro c hc h
    have := hsep c hc (by rw [h]; decide)
    rw [h] at this
    exact absurd this (by decide)
  simp only [cleanFilenameForTitleL]
  rw [splitextL_no_dot t hdot]
  simp only []
  rw [removeDatePatternsL_fixed t hd ha hsep hadj hhead hlast]
  rw [map_eq_self_of_mem (fun c hc => if_neg (hnu c hc))]
  rw [subAll_id hyphMatchAt _ t
    (fun d ds hsuf => hyphMatchAt_none _ (fun x hx => hnh x (hsuf.subset hx)))]
  rw [collapse_id t (fun c hc hp => hsep c hc (by simp [isSepClass, hp])) hadj]
  exact stripWhile_eq_self _ _ hhead hlast

/-- C3 amended: `clean_filename_for_title` is idempotent on every output that
contains no dot, no decimal digit and no apostrophe: re-normalizing such a
title returns it unchanged. -/
theorem c3_clean_idempotent_on_plain_outputs (s : String)
    (h : ∀ c ∈ (clean_filename_for_title s).data,
        ¬(c = '.') ∧ pyIsDigit c = false ∧ ¬(c = apos)) :
    clean_filename_for_title (clean_filename_for_title s) = clean_filename_for_title s := by
  have hx : clean_filename_for_title (clean_filename_for_title s)
      = ⟨cleanFilenameForTitleL (clean_filename_for_title s).data⟩ := rfl
  have hz : clean_filename_for_title s = (⟨cleanFilenameForTitleL s.data⟩ : String) := rfl
  have hproj : ∀ l : List Char, (String.mk l).data = l := fun _ => rfl
  have hmem : ∀ c, c ∈ cleanFilenameForTitleL s.data →
      c ∈ (clean_filename_for_title s).data := by
    intro c hc
    rw [hz, hproj]
    exact hc
  rw [hx, hz, hproj]
  refine congrArg String.mk ?_
  refine cleanL_fixed _ ?_ ?_ ?_
    (cleanL_sep_space s.data) (cleanL_noAdj s.data) (cleanL_head s.data) (cleanL_last s.data)
  · intro c hc
    exact (h c (hmem c hc)).1
  · intro c hc
    exact (h c (hmem c hc)).2.1
  · intro c hc
    exact (h c (hmem c hc)).2.2

set_option maxHeartbeats 2000000 in
/-- Witness for the amended C3 theorem: the title produced from
`Security Deep Dive - Oct 2023.pdf` has no dot, digit or apostrophe, and
normalizing it again leaves it unchanged. -/
theorem c3_clean_idempotent_witness :
    clean_filename_for_title (clean_filename_for_title "Security Deep Dive - Oct 2023.pdf")
      = clean_filename_for_title "Security Deep Dive - Oct 2023.pdf" :=
  c3_clean_idempotent_on_plain_outputs "Security Deep Dive - Oct 2023.pdf" (by decide)

end ShowPublic
